import Mathlib

/-!
Verification development for the meet2action core components.

Python strings are modelled as `List Char` (ASCII-level model of the
regex character classes used by the source: str.strip and the regex
class \s are modelled by the six ASCII whitespace characters, \d by
the ASCII digits).  The two source files embedded here are
components/transcript_parser.py and components/gemini_processor.py.
-/

/-- ASCII model of the Python regex class \s and of str.strip
whitespace: space, tab, newline, carriage return, vertical tab,
form feed. -/
def isSpaceC (c : Char) : Bool :=
  decide (c.toNat = 32 ∨ c.toNat = 9 ∨ c.toNat = 10 ∨ c.toNat = 13 ∨ c.toNat = 11 ∨ c.toNat = 12)

/-- ASCII model of the Python regex class \d. -/
def isDigitC (c : Char) : Bool :=
  decide (48 ≤ c.toNat ∧ c.toNat ≤ 57)

/-- The regex class [A-Z]. -/
def isAsciiUpper (c : Char) : Bool :=
  decide (65 ≤ c.toNat ∧ c.toNat ≤ 90)

/-- The regex class [a-z]. -/
def isAsciiLower (c : Char) : Bool :=
  decide (97 ≤ c.toNat ∧ c.toNat ≤ 122)

/-- The regex class [a-zA-Z\s] used by the speaker pattern. -/
def isLetterOrWsC (c : Char) : Bool :=
  isAsciiUpper c || isAsciiLower c || isSpaceC c

/-- Last character of a list, if any. -/
def lastCh : List Char → Option Char
  | [] => none
  | [c] => some c
  | _ :: c :: rest => lastCh (c :: rest)

/-- Remove trailing whitespace (the right half of Python str.strip). -/
def rstrip : List Char → List Char
  | [] => []
  | c :: rest =>
    match rstrip rest with
    | [] => if isSpaceC c then [] else [c]
    | y :: ys => c :: y :: ys

/-- Python str.strip: remove leading and trailing whitespace. -/
def pyStrip (l : List Char) : List Char :=
  rstrip (l.dropWhile isSpaceC)

/-- Python raw_text.split of a newline character: the list of lines.
The empty text yields one empty line, matching Python. -/
def splitOnNl (l : List Char) : List (List Char) :=
  l.foldr
    (fun c acc =>
      if c = '\n' then [] :: acc
      else
        match acc with
        | h :: t => (c :: h) :: t
        | [] => [[c]])
    [[]]

/-- Python str.join with a single space separator. -/
def pyJoin : List (List Char) → List Char
  | [] => []
  | [s] => s
  | s :: s2 :: rest => s ++ ' ' :: pyJoin (s2 :: rest)

/-!
The timestamp regex of transcript_parser.py line 24 and line 94 is
  \d{1,2}:\d{2}(:\d{2})?\s
Matching at a fixed position is embedded by `tsAt`, which returns the
remainder after the match.  Backtracking is settled statically: the
greedy two-digit reading of \d{1,2} can never be rescued by the
one-digit reading (the next mandatory character would have to be a
colon and is a digit), and the greedy optional group (:\d{2})? can
never be rescued by its absence (the mandatory \s would have to match
a colon).
-/

/-- Match the tail (:\d{2})?\s of the timestamp regex, returning the
remainder after the consumed whitespace character. -/
def tsTail2 (rest : List Char) : Option (List Char) :=
  match rest with
  | ':' :: e1 :: e2 :: s :: rest2 =>
    if isDigitC e1 && isDigitC e2 && isSpaceC s then some rest2 else none
  | s :: rest3 => if isSpaceC s then some rest3 else none
  | [] => none

/-- Match :\d{2} followed by `tsTail2`. -/
def colonTail (l : List Char) : Option (List Char) :=
  match l with
  | ':' :: d1 :: d2 :: rest =>
    if isDigitC d1 && isDigitC d2 then tsTail2 rest else none
  | _ => none

/-- Match the whole timestamp regex \d{1,2}:\d{2}(:\d{2})?\s at the
start of the list, returning the remainder after the match. -/
def tsAt (l : List Char) : Option (List Char) :=
  match l with
  | [] => none
  | d1 :: rest =>
    if isDigitC d1 then
      match rest with
      | d2 :: rest2 => if isDigitC d2 then colonTail rest2 else colonTail rest
      | [] => none
    else none

/-- One pass of re.sub with the timestamp regex and empty replacement:
left-to-right scan removing each non-overlapping match
(transcript_parser.py line 94).  The fuel argument is bounded by the
input length, which suffices because every step strictly shortens the
list. -/
def stripTsF : Nat → List Char → List Char
  | 0, l => l
  | _ + 1, [] => []
  | fuel + 1, c :: rest =>
    match tsAt (c :: rest) with
    | some r => stripTsF fuel r
    | none => c :: stripTsF fuel rest

/-- re.sub removing every timestamp occurrence anywhere in the text. -/
def stripTs (l : List Char) : List Char :=
  stripTsF l.length l

/-- re.sub collapsing every maximal run of whitespace to a single
space (transcript_parser.py line 97). -/
def collapseWs : List Char → List Char
  | [] => []
  | [c] => if isSpaceC c then [' '] else [c]
  | a :: b :: rest =>
    if isSpaceC a && isSpaceC b then collapseWs (b :: rest)
    else (if isSpaceC a then ' ' else a) :: collapseWs (b :: rest)

/-- str.replace of a form feed by a space (transcript_parser.py
line 100). -/
def ffRepl (c : Char) : Char :=
  if c.toNat = 12 then ' ' else c

/-- clean_transcript from transcript_parser.py lines 80 to 102:
remove timestamps, collapse whitespace runs, replace form feeds,
strip. -/
def clean_transcript (raw : List Char) : List Char :=
  if raw.isEmpty then []
  else pyStrip ((collapseWs (stripTs raw)).map ffRepl)

/-- Drop one final newline if present: the regex anchor for the end
of the text also matches just before a final newline. -/
def dropFinalNl (l : List Char) : List Char :=
  match lastCh l with
  | some c => if c = '\n' then l.dropLast else l
  | none => l

/-- The speaker regex of transcript_parser.py line 27:
  ^([A-Z][a-zA-Z\s]+):\s*(.+)$
Returns the two captured groups on success.  Group one is the leading
uppercase letter with the maximal following run of letters and
whitespace (the class excludes the colon, so failed backtracking can
never recover a match).  Group two is the remainder after the colon
with its leading whitespace dropped; the dot of the regex cannot cross
a newline, hence the newline guard.  parse_transcript only ever
applies this to lines from a newline split, which contain no newline. -/
def speaker_match (l : List Char) : Option (List Char × List Char) :=
  match l with
  | [] => none
  | u :: rest =>
    if isAsciiUpper u then
      let run := rest.takeWhile isLetterOrWsC
      match rest.dropWhile isLetterOrWsC with
      | ':' :: rest2 =>
        let m := (dropFinalNl rest2).dropWhile isSpaceC
        if !run.isEmpty && !m.isEmpty && !(m.contains '\n') then some (u :: run, m)
        else none
      | _ => none
    else none

/-- One conversation turn of the parsed transcript. -/
structure Turn where
  speaker : List Char
  text : List Char
deriving Repr, DecidableEq

/-- The scan state of parse_transcript: current_speaker, current_text
and the emitted list. -/
structure PState where
  cs : Option (List Char)
  ct : List (List Char)
  parsed : List Turn
deriving Repr, DecidableEq

/-- Python truthiness of the current_speaker string: set and
non-empty. -/
def truthyStr : Option (List Char) → Bool
  | some s => !s.isEmpty
  | none => false

/-- The literal speaker label used when no speaker was identified. -/
def unknownS : List Char := ("Unknown").data

/-- The in-place mutation of the last emitted turn on line 62 of
transcript_parser.py: append a space and the line to its text. -/
def mutateLast : List Turn → List Char → List Turn
  | [], _ => []
  | [t], line => [⟨t.speaker, t.text ++ ' ' :: line⟩]
  | t :: t2 :: ts, line => t :: mutateLast (t2 :: ts) line

/-- Finalize the in-progress turn if current_speaker and current_text
are both truthy (lines 46 to 50 and 71 to 75 of the source). -/
def emitCurrent (st : PState) : List Turn :=
  if truthyStr st.cs && !st.ct.isEmpty then
    st.parsed ++ [⟨st.cs.getD [], pyJoin st.ct⟩]
  else st.parsed

/-- Strip a leading timestamp from a line, then strip again
(lines 39 and 40 of the source).  The anchored pattern can match at
most once, so the re.sub removes at most one leading timestamp. -/
def tsProc (l : List Char) : List Char :=
  match tsAt l with
  | some r => pyStrip r
  | none => l

/-- The body of the scan loop of parse_transcript (lines 32 to 68). -/
def processLine (st : PState) (rawLine : List Char) : PState :=
  let line := pyStrip rawLine
  if line.isEmpty then st
  else
    let line2 := tsProc line
    match speaker_match line2 with
    | some (g1, g2) => ⟨some (pyStrip g1), [pyStrip g2], emitCurrent st⟩
    | none =>
      if truthyStr st.cs then ⟨st.cs, st.ct ++ [line2], st.parsed⟩
      else if !st.parsed.isEmpty then ⟨st.cs, st.ct, mutateLast st.parsed line2⟩
      else ⟨st.cs, st.ct, st.parsed ++ [⟨unknownS, line2⟩]⟩

/-- parse_transcript from transcript_parser.py lines 6 to 77. -/
def parse_transcript (raw : List Char) : List Turn :=
  if raw.isEmpty then []
  else emitCurrent ((splitOnNl raw).foldl processLine ⟨none, [], []⟩)

/-!
Embedding of gemini_processor.py.  The external generation capability
(the Gemini call) is modelled by an explicit `GenOutcome` argument:
either the textual response, or a raised exception carrying a message
(network, authentication or configuration failures, all caught by the
generic handler on line 84 of the source).  Streamlit diagnostics
(st.error, st.code) are modelled as a returned list of `Diag` values.
Python json.loads is modelled by `json_loads` below (integers only;
fractional numbers are outside the model).
-/

/-- JSON values as produced by json.loads. -/
inductive JVal where
  | jnull
  | jbool (b : Bool)
  | jnum (n : Int)
  | jstr (s : List Char)
  | jarr (elems : List JVal)
  | jobj (fields : List (List Char × JVal))

/-- JSON whitespace accepted between tokens. -/
def isJsonWs (c : Char) : Bool :=
  decide (c.toNat = 32 ∨ c.toNat = 9 ∨ c.toNat = 10 ∨ c.toNat = 13)

/-- Skip JSON whitespace. -/
def skipWs (l : List Char) : List Char := l.dropWhile isJsonWs

/-- Single-character string escapes of JSON. -/
def escChar (e : Char) : Option Char :=
  if e = '"' then some '"'
  else if e = '\\' then some '\\'
  else if e = '/' then some '/'
  else if e = 'b' then some (Char.ofNat 8)
  else if e = 'f' then some (Char.ofNat 12)
  else if e = 'n' then some '\n'
  else if e = 'r' then some '\r'
  else if e = 't' then some '\t'
  else none

/-- Value of one hexadecimal digit. -/
def hexDigitVal (c : Char) : Option Nat :=
  if 48 ≤ c.toNat ∧ c.toNat ≤ 57 then some (c.toNat - 48)
  else if 97 ≤ c.toNat ∧ c.toNat ≤ 102 then some (c.toNat - 87)
  else if 65 ≤ c.toNat ∧ c.toNat ≤ 70 then some (c.toNat - 55)
  else none

/-- Parse the body of a JSON string after the opening quote, returning
the content and the remainder after the closing quote.  Control
characters below 32 are rejected as in strict json.loads. -/
def jStringBody : Nat → List Char → Option (List Char × List Char)
  | 0, _ => none
  | _ + 1, [] => none
  | fuel + 1, c :: rest =>
    if c = '"' then some ([], rest)
    else if c = '\\' then
      match rest with
      | [] => none
      | e :: rest2 =>
        if e = 'u' then
          match rest2 with
          | h1 :: h2 :: h3 :: h4 :: rest3 =>
            match hexDigitVal h1, hexDigitVal h2, hexDigitVal h3, hexDigitVal h4 with
            | some a, some b, some c2, some d =>
              match jStringBody fuel rest3 with
              | some (s, r) => some (Char.ofNat (((a * 16 + b) * 16 + c2) * 16 + d) :: s, r)
              | none => none
            | _, _, _, _ => none
          | _ => none
        else
          match escChar e with
          | some ec =>
            match jStringBody fuel rest2 with
            | some (s, r) => some (ec :: s, r)
            | none => none
          | none => none
    else if c.toNat < 32 then none
    else
      match jStringBody fuel rest with
      | some (s, r) => some (c :: s, r)
      | none => none

/-- Natural number from a list of decimal digits. -/
def natOfDigits (ds : List Char) : Nat :=
  ds.foldl (fun acc d => acc * 10 + (d.toNat - 48)) 0

/-- Parse a JSON integer.  Leading zeros are rejected as in JSON;
fractional and exponent forms are outside this model and fail. -/
def jNumParse (l : List Char) : Option (JVal × List Char) :=
  match l with
  | '-' :: rest => jNumParseNat true rest
  | _ => jNumParseNat false l
where
  jNumParseNat (neg : Bool) (l2 : List Char) : Option (JVal × List Char) :=
    let ds := l2.takeWhile isDigitC
    let rest := l2.dropWhile isDigitC
    if ds.isEmpty then none
    else if 1 < ds.length && ds.head? = some '0' then none
    else
      match rest with
      | '.' :: _ => none
      | 'e' :: _ => none
      | 'E' :: _ => none
      | _ =>
        some (JVal.jnum (if neg then -(natOfDigits ds : Int) else (natOfDigits ds : Int)), rest)

/-- Match a literal continuation such as the tail of null. -/
def litMatch (lit : List Char) (l : List Char) : Option (List Char) :=
  if lit.isPrefixOf l then some (l.drop lit.length) else none

mutual

/-- Parse one JSON value (model of the json.loads grammar). -/
def jValP : Nat → List Char → Option (JVal × List Char)
  | 0, _ => none
  | fuel + 1, l =>
    match l with
    | [] => none
    | c :: rest =>
      if c = '"' then
        match jStringBody (fuel + 1) rest with
        | some (s, r) => some (JVal.jstr s, r)
        | none => none
      else if c = '[' then
        let l2 := skipWs rest
        match l2 with
        | ']' :: r => some (JVal.jarr [], r)
        | _ =>
          match jValP fuel l2 with
          | some (v, r) => jArrRest fuel (skipWs r) [v]
          | none => none
      else if c.toNat = 123 then
        let l2 := skipWs rest
        match l2 with
        | [] => none
        | c2 :: r =>
          if c2.toNat = 125 then some (JVal.jobj [], r)
          else
            match jPairP fuel l2 with
            | some (kv, r2) => jObjRest fuel (skipWs r2) [kv]
            | none => none
      else if c = 't' then
        match litMatch (("rue").data) rest with
        | some r => some (JVal.jbool true, r)
        | none => none
      else if c = 'f' then
        match litMatch (("alse").data) rest with
        | some r => some (JVal.jbool false, r)
        | none => none
      else if c = 'n' then
        match litMatch (("ull").data) rest with
        | some r => some (JVal.jnull, r)
        | none => none
      else if c = '-' || isDigitC c then jNumParse l
      else none

/-- Parse one quoted key, a colon and a value. -/
def jPairP : Nat → List Char → Option ((List Char × JVal) × List Char)
  | 0, _ => none
  | fuel + 1, l =>
    match l with
    | [] => none
    | c :: rest =>
      if c = '"' then
        match jStringBody (fuel + 1) rest with
        | some (k, r) =>
          match skipWs r with
          | ':' :: r3 =>
            match jValP fuel (skipWs r3) with
            | some (v, r4) => some ((k, v), r4)
            | none => none
          | _ => none
        | none => none
      else none

/-- Remaining elements of an array after the first. -/
def jArrRest : Nat → List Char → List JVal → Option (JVal × List Char)
  | 0, _, _ => none
  | fuel + 1, l, acc =>
    match l with
    | ']' :: r => some (JVal.jarr acc, r)
    | ',' :: r =>
      match jValP fuel (skipWs r) with
      | some (v, r2) => jArrRest fuel (skipWs r2) (acc ++ [v])
      | none => none
    | _ => none

/-- Remaining members of an object after the first. -/
def jObjRest : Nat → List Char → List (List Char × JVal) → Option (JVal × List Char)
  | 0, _, _ => none
  | fuel + 1, l, acc =>
    match l with
    | c :: r =>
      if c.toNat = 125 then some (JVal.jobj acc, r)
      else if c = ',' then
        match jPairP fuel (skipWs r) with
        | some (kv, r2) => jObjRest fuel (skipWs r2) (acc ++ [kv])
        | none => none
      else none
    | [] => none

end

/-- Model of json.loads: parse one value and require only whitespace
to remain.  The fuel is adequate: every nested parse first consumes at
least one character. -/
def json_loads (l : List Char) : Option JVal :=
  match jValP (l.length + 1) (skipWs l) with
  | some (v, rest) => if (skipWs rest).isEmpty then some v else none
  | none => none

/-- Python dict lookup on the field list of a parsed object: with
duplicate keys the later occurrence wins, as when json.loads builds
the dict. -/
def pyDictGet (fields : List (List Char × JVal)) (key : List Char) : Option JVal :=
  match fields with
  | [] => none
  | (k, v) :: rest =>
    match pyDictGet rest key with
    | some w => some w
    | none => if k == key then some v else none

/-- Python membership test of a key in a dict. -/
def pyDictHas (fields : List (List Char × JVal)) (key : List Char) : Bool :=
  fields.any (fun f => f.1 == key)

/-- Python iteration over the value returned by json.loads: lists
yield their elements, dicts their keys (duplicate keys are immaterial
here because string elements are always dropped by validation),
strings their characters as one-character strings; numbers, booleans
and None raise TypeError, modelled by none. -/
def pyIter : JVal → Option (List JVal)
  | JVal.jarr xs => some xs
  | JVal.jobj fs => some (fs.map (fun f => JVal.jstr f.1))
  | JVal.jstr s => some (s.map (fun c => JVal.jstr [c]))
  | _ => none

/-- A validated action item: the three values taken from the parsed
element (arbitrary JSON values pass through unchanged). -/
structure ActionItem where
  assignee : JVal
  task : JVal
  priority : JVal

/-- The key and default literals of the validation loop. -/
def taskKey : List Char := ("task").data

/-- The assignee key literal. -/
def assigneeKey : List Char := ("assignee").data

/-- The priority key literal. -/
def priorityKey : List Char := ("priority").data

/-- The default assignee literal. -/
def unassignedS : List Char := ("Unassigned").data

/-- The default priority literal. -/
def mediumS : List Char := ("Medium").data

/-- One step of the validation loop of gemini_processor.py lines 69
to 75: keep a dict element containing a task key, with defaults for
the absent keys. -/
def validateStep (acc : List ActionItem) (item : JVal) : List ActionItem :=
  match item with
  | JVal.jobj fields =>
    if pyDictHas fields taskKey then
      acc ++ [⟨(pyDictGet fields assigneeKey).getD (JVal.jstr unassignedS),
              (pyDictGet fields taskKey).getD (JVal.jstr []),
              (pyDictGet fields priorityKey).getD (JVal.jstr mediumS)⟩]
    else acc
  | _ => acc

/-- The validation loop: start from the empty list and append the
kept elements in order. -/
def validateLoop (items : List JVal) : List ActionItem :=
  items.foldl validateStep []

/-- Modelled from the spec (section 4.2, validation): an element is
kept if and only if it is a keyed record containing a task key; kept
elements are emitted in input order with assignee defaulting to
Unassigned, task passed through even when empty, priority passed
through verbatim defaulting to Medium.  Written from the wording of
the spec for the refinement comparison of claim C3. -/
def specKeep (item : JVal) : Option ActionItem :=
  match item with
  | JVal.jobj fields =>
    if pyDictHas fields taskKey then
      some ⟨(pyDictGet fields assigneeKey).getD (JVal.jstr unassignedS),
            (pyDictGet fields taskKey).getD (JVal.jstr []),
            (pyDictGet fields priorityKey).getD (JVal.jstr mediumS)⟩
    else none
  | _ => none

/-- Spec-side validation as a filter over the array. -/
def specValidate (items : List JVal) : List ActionItem :=
  items.filterMap specKeep

/-- The fenced-block markers used by the response unwrapping. -/
def fence : List Char := ("```").data

/-- The labeled fence marker. -/
def fenceJson : List Char := ("```json").data

/-- Substring test, modelling the Python in operator on str. -/
def hasSub (needle : List Char) : List Char → Bool
  | [] => needle.isEmpty
  | c :: rest => needle.isPrefixOf (c :: rest) || hasSub needle rest

/-- Everything after the first occurrence of the separator (empty when
the separator does not occur). -/
def afterFirst (sep : List Char) : List Char → List Char
  | [] => []
  | c :: rest =>
    if sep.isPrefixOf (c :: rest) then (c :: rest).drop sep.length
    else afterFirst sep rest

/-- Everything before the first occurrence of the separator (the whole
list when the separator does not occur). -/
def takeUntil (sep : List Char) : List Char → List Char
  | [] => []
  | c :: rest =>
    if sep.isPrefixOf (c :: rest) then []
    else c :: takeUntil sep rest

/-- The response unwrapping of gemini_processor.py lines 56 to 62:
strip the response, then cut out the first fenced block labeled json,
failing that the first generic fenced block, otherwise keep the whole
stripped response.  Python split(sep) followed by indexing is
expressed through afterFirst and takeUntil; cutting the first segment
at the next fence is equivalent because the labeled marker itself
starts with the generic marker. -/
def unwrapResponse (text : List Char) : List Char :=
  let rt := pyStrip text
  if hasSub fenceJson rt then pyStrip (takeUntil fence (afterFirst fenceJson rt))
  else if hasSub fence rt then pyStrip (takeUntil fence (afterFirst fence rt))
  else rt

/-- Behaviour of the external generation capability for one call:
either the textual response, or an exception message caught by the
generic handler. -/
inductive GenOutcome where
  | ok (text : List Char)
  | fail (msg : List Char)

/-- Diagnostics surfaced to the caller: st.error messages and the
st.code block showing raw text. -/
inductive Diag where
  | error (msg : List Char)
  | code (content : List Char)
deriving Repr, DecidableEq

/-- Message prefix of the generic exception handler (line 85). -/
def genFailPre : List Char := ("Error processing transcript with Gemini: ").data

/-- Message of the JSON decode handler (line 80); the exception detail
appended by str(e) is elided from the model. -/
def parseFailMsg : List Char := ("Failed to parse Gemini response as JSON").data

/-- Python type name of a non-iterable json.loads result, used in the
TypeError message raised by the validation loop. -/
def pyTypeName : JVal → List Char
  | JVal.jnull => ("NoneType").data
  | JVal.jbool _ => ("bool").data
  | JVal.jnum _ => ("int").data
  | _ => []

/-- The TypeError message caught by the generic handler when the
parsed top-level value is not iterable. -/
def iterFailMsg (v : JVal) : List Char :=
  genFailPre ++ '\x27' :: (pyTypeName v ++ '\x27' :: (" object is not iterable").data)

/-- extract_action_items from gemini_processor.py lines 16 to 86.
Empty input short-circuits before the external call; a raised
exception from the call is caught and surfaced as a diagnostic with an
empty result; otherwise the response is unwrapped, parsed as JSON and
validated.  A JSON parse failure surfaces the error message and the
raw offending text; a non-iterable top-level value surfaces the
TypeError through the generic handler.  The function is total: no
exception propagates. -/
def extract_action_items (transcript : List Char) (gen : GenOutcome) :
    List ActionItem × List Diag :=
  if transcript.isEmpty then ([], [])
  else
    match gen with
    | GenOutcome.fail msg => ([], [Diag.error (genFailPre ++ msg)])
    | GenOutcome.ok text =>
      let rt := unwrapResponse text
      match json_loads rt with
      | none => ([], [Diag.error parseFailMsg, Diag.code rt])
      | some v =>
        match pyIter v with
        | some items => (validateLoop items, [])
        | none => ([], [Diag.error (iterFailMsg v)])

/-- Spec-side predicate for claim C4: the text contains a clock-style
timestamp substring of the form H:MM or HH:MM:SS. -/
def tsShapeAt (l : List Char) : Bool :=
  (match l with
   | a :: ':' :: b :: c :: _ => isDigitC a && isDigitC b && isDigitC c
   | _ => false) ||
  (match l with
   | a1 :: a2 :: ':' :: b1 :: b2 :: ':' :: c1 :: c2 :: _ =>
     isDigitC a1 && isDigitC a2 && isDigitC b1 && isDigitC b2 && isDigitC c1 && isDigitC c2
   | _ => false)

/-- The text contains a timestamp-shaped substring at some position. -/
def spec_hasTimestamp : List Char → Bool
  | [] => false
  | c :: rest => tsShapeAt (c :: rest) || spec_hasTimestamp rest

/-- No two consecutive whitespace characters. -/
def noDoubleWs : List Char → Bool
  | a :: b :: rest => !(isSpaceC a && isSpaceC b) && noDoubleWs (b :: rest)
  | _ => true

/-- Neither a leading nor a trailing whitespace character. -/
def noEdgeWs (l : List Char) : Bool :=
  (match l.head? with
   | some c => !isSpaceC c
   | none => true) &&
  (match lastCh l with
   | some c => !isSpaceC c
   | none => true)

/-- A scan state that already guarantees a non-empty final result:
either a turn was emitted, or a truthy speaker with a non-empty
accumulation is in progress. -/
def goodSt (st : PState) : Prop :=
  st.parsed ≠ [] ∨ (truthyStr st.cs = true ∧ st.ct ≠ [])

/-- The structural invariant of the scan state: every emitted turn has
a non-empty speaker and a non-empty text, and every accumulated text
segment is non-empty. -/
def InvSt (st : PState) : Prop :=
  (∀ t ∈ st.parsed, t.speaker ≠ [] ∧ t.text ≠ []) ∧ (∀ s ∈ st.ct, s ≠ [])

/-!
Helper lemmas about whitespace handling, shared by several claims.
-/

theorem rstrip_cons (c : Char) (rest : List Char) :
    rstrip (c :: rest) =
      match rstrip rest with
      | [] => if isSpaceC c then [] else [c]
      | y :: ys => c :: y :: ys := rfl

theorem noDouble_cons (c : Char) (l : List Char) (h : noDoubleWs (c :: l) = true) :
    noDoubleWs l = true := by
  cases l with
  | nil => rfl
  | cons b rest =>
    simp only [noDoubleWs, Bool.and_eq_true] at h
    exact h.2

theorem noDouble_dropWhile (p : Char → Bool) (l : List Char)
    (h : noDoubleWs l = true) : noDoubleWs (l.dropWhile p) = true := by
  induction l with
  | nil => simpa using h
  | cons a rest ih =>
    cases hp : p a with
    | true =>
      simp only [List.dropWhile, hp]
      exact ih (noDouble_cons _ _ h)
    | false =>
      simpa only [List.dropWhile, hp] using h

theorem rstrip_head (l : List Char) (c : Char) (h : (rstrip l).head? = some c) :
    l.head? = some c := by
  cases l with
  | nil => exact Option.noConfusion h
  | cons a rest =>
    rw [rstrip_cons] at h
    cases hr : rstrip rest with
    | nil =>
      rw [hr] at h
      by_cases hs : isSpaceC a = true
      · rw [if_pos hs] at h
        exact Option.noConfusion h
      · rw [if_neg hs] at h
        simpa using h
    | cons y ys =>
      rw [hr] at h
      simpa using h

theorem noDouble_rstrip (l : List Char) (h : noDoubleWs l = true) :
    noDoubleWs (rstrip l) = true := by
  induction l with
  | nil => rfl
  | cons a rest ih =>
    rw [rstrip_cons]
    cases hr : rstrip rest with
    | nil =>
      by_cases hs : isSpaceC a = true
      · rw [if_pos hs]
        rfl
      · rw [if_neg hs]
        rfl
    | cons y ys =>
      have hrest : noDoubleWs (y :: ys) = true := by
        rw [← hr]
        exact ih (noDouble_cons _ _ h)
      have hy : rest.head? = some y :=
        rstrip_head rest y (by rw [hr]; rfl)
      cases rest with
      | nil => exact Option.noConfusion hy
      | cons b rest2 =>
        have hby : b = y := by simpa using hy
        subst hby
        simp only [noDoubleWs, Bool.and_eq_true] at h ⊢
        exact ⟨h.1, hrest⟩

theorem dropWhile_head (p : Char → Bool) (l : List Char) (c : Char)
    (h : (l.dropWhile p).head? = some c) : p c = false := by
  induction l with
  | nil => exact Option.noConfusion h
  | cons a rest ih =>
    cases hp : p a with
    | true =>
      simp only [List.dropWhile, hp] at h
      exact ih h
    | false =>
      simp only [List.dropWhile, hp] at h
      have hac : a = c := by simpa using h
      rw [← hac]
      exact hp

theorem lastCh_cons (a : Char) (w : List Char) (hw : w ≠ []) :
    lastCh (a :: w) = lastCh w := by
  cases w with
  | nil => exact absurd rfl hw
  | cons b rest => rfl

theorem rstrip_last (l : List Char) (c : Char) (h : lastCh (rstrip l) = some c) :
    isSpaceC c = false := by
  induction l with
  | nil => exact Option.noConfusion h
  | cons a rest ih =>
    rw [rstrip_cons] at h
    cases hr : rstrip rest with
    | nil =>
      rw [hr] at h
      by_cases hs : isSpaceC a = true
      · rw [if_pos hs] at h
        exact Option.noConfusion h
      · rw [if_neg hs] at h
        have hac : a = c := by simpa [lastCh] using h
        rw [← hac]
        exact Bool.not_eq_true _ ▸ hs
    | cons y ys =>
      rw [hr] at h
      rw [lastCh_cons a (y :: ys) (by simp)] at h
      rw [← hr] at h
      exact ih h

theorem lastCh_ne_nil (l : List Char) (h : l ≠ []) : ∃ c, lastCh l = some c := by
  induction l with
  | nil => exact absurd rfl h
  | cons a rest ih =>
    cases rest with
    | nil => exact ⟨a, rfl⟩
    | cons b rs =>
      obtain ⟨c, hc⟩ := ih (by simp)
      exact ⟨c, by rw [lastCh_cons a (b :: rs) (by simp)]; exact hc⟩

theorem lastCh_mem (l : List Char) (c : Char) (h : lastCh l = some c) : c ∈ l := by
  induction l with
  | nil => exact Option.noConfusion h
  | cons a rest ih =>
    cases rest with
    | nil =>
      have hac : a = c := by simpa [lastCh] using h
      rw [hac]
      exact List.mem_singleton_self c
    | cons b rs =>
      rw [lastCh_cons a (b :: rs) (by simp)] at h
      exact List.mem_cons_of_mem a (ih h)

theorem lastCh_dropWhile (p : Char → Bool) (l : List Char)
    (h : l.dropWhile p ≠ []) : lastCh (l.dropWhile p) = lastCh l := by
  induction l with
  | nil => simp at h
  | cons a rest ih =>
    cases hp : p a with
    | true =>
      simp only [List.dropWhile, hp] at h ⊢
      have hrest : rest ≠ [] := by
        intro he
        rw [he] at h
        simp at h
      rw [ih h, lastCh_cons a rest hrest]
    | false =>
      simp only [List.dropWhile, hp]

theorem rstrip_ne (l : List Char) (c : Char) (hl : lastCh l = some c)
    (hc : isSpaceC c = false) : rstrip l ≠ [] := by
  induction l with
  | nil => exact Option.noConfusion hl
  | cons a rest ih =>
    cases rest with
    | nil =>
      have hac : a = c := by simpa [lastCh] using hl
      rw [rstrip_cons]
      simp only [rstrip]
      rw [hac, hc]
      simp
    | cons b rs =>
      rw [lastCh_cons a (b :: rs) (by simp)] at hl
      have hne := ih hl
      rw [rstrip_cons]
      cases hr : rstrip (b :: rs) with
      | nil => exact absurd hr hne
      | cons y ys => simp

theorem pyStrip_last (l : List Char) (c : Char) (h : lastCh (pyStrip l) = some c) :
    isSpaceC c = false :=
  rstrip_last _ _ h

theorem pyStrip_head (l : List Char) (c : Char) (h : (pyStrip l).head? = some c) :
    isSpaceC c = false :=
  dropWhile_head _ _ _ (rstrip_head _ _ h)

theorem pyStrip_ne_of_last (l : List Char) (c : Char) (hl : lastCh l = some c)
    (hc : isSpaceC c = false) : pyStrip l ≠ [] := by
  unfold pyStrip
  have hd : l.dropWhile isSpaceC ≠ [] := by
    intro he
    have hall := List.dropWhile_eq_nil_iff.mp he
    have hsp := hall c (lastCh_mem l c hl)
    rw [hsp] at hc
    exact Bool.true_eq_false.mp hc
  exact rstrip_ne _ c (by rw [lastCh_dropWhile _ _ hd]; exact hl) hc

theorem pyStrip_ne_of_head (l : List Char) (c : Char) (hl : l.head? = some c)
    (hc : isSpaceC c = false) : pyStrip l ≠ [] := by
  cases l with
  | nil => exact Option.noConfusion hl
  | cons a rest =>
    have hac : a = c := by simpa using hl
    subst hac
    unfold pyStrip
    simp only [List.dropWhile, hc]
    rw [rstrip_cons]
    cases hr : rstrip rest with
    | nil =>
      rw [hc]
      simp
    | cons y ys => simp

theorem noDouble_pyStrip (l : List Char) (h : noDoubleWs l = true) :
    noDoubleWs (pyStrip l) = true :=
  noDouble_rstrip _ (noDouble_dropWhile _ _ h)

theorem collapse_head (rest : List Char) :
    ∀ b : Char, ∃ h t, collapseWs (b :: rest) = h :: t ∧ isSpaceC h = isSpaceC b := by
  induction rest with
  | nil =>
    intro b
    cases hb : isSpaceC b with
    | true => exact ⟨' ', [], by simp [collapseWs, hb], by decide⟩
    | false => exact ⟨b, [], by simp [collapseWs, hb], hb⟩
  | cons r0 rs ih =>
    intro b
    cases hb : isSpaceC b with
    | true =>
      cases hr : isSpaceC r0 with
      | true =>
        obtain ⟨h, t, hsplit, hsp⟩ := ih r0
        refine ⟨h, t, ?_, ?_⟩
        · rw [show collapseWs (b :: r0 :: rs) = collapseWs (r0 :: rs) by
                simp [collapseWs, hb, hr]]
          exact hsplit
        · rw [hsp, hr]
      | false =>
        refine ⟨' ', collapseWs (r0 :: rs), ?_, by decide⟩
        simp [collapseWs, hb, hr]
    | false =>
      refine ⟨b, collapseWs (r0 :: rs), ?_, hb⟩
      cases hr : isSpaceC r0 with
      | true => simp [collapseWs, hb, hr]
      | false => simp [collapseWs, hb, hr]

theorem collapse_noDouble (l : List Char) : noDoubleWs (collapseWs l) = true := by
  induction l with
  | nil => rfl
  | cons a rest ih =>
    cases rest with
    | nil =>
      by_cases h : isSpaceC a = true
      · simp [collapseWs, h, noDoubleWs]
      · simp [collapseWs, h, noDoubleWs]
    | cons b rs =>
      obtain ⟨hd, t, hsplit, hsp⟩ := collapse_head rs b
      cases ha : isSpaceC a with
      | true =>
        cases hb : isSpaceC b with
        | true =>
          rw [show collapseWs (a :: b :: rs) = collapseWs (b :: rs) by
                simp [collapseWs, ha, hb]]
          exact ih
        | false =>
          rw [show collapseWs (a :: b :: rs) = ' ' :: collapseWs (b :: rs) by
                simp [collapseWs, ha, hb]]
          rw [hsplit]
          simp only [noDoubleWs, Bool.and_eq_true]
          refine ⟨?_, by rw [← hsplit]; exact ih⟩
          rw [hsp, hb]
          simp
      | false =>
        rw [show collapseWs (a :: b :: rs) = a :: collapseWs (b :: rs) by
              simp [collapseWs, ha]]
        rw [hsplit]
        simp only [noDoubleWs, Bool.and_eq_true]
        refine ⟨?_, by rw [← hsplit]; exact ih⟩
        rw [ha]
        simp

theorem isSpace_ffRepl (c : Char) : isSpaceC (ffRepl c) = isSpaceC c := by
  unfold ffRepl
  by_cases h : c.toNat = 12
  · rw [if_pos h]
    unfold isSpaceC
    rw [h]
    decide
  · rw [if_neg h]

theorem noDouble_map_ff (l : List Char) (h : noDoubleWs l = true) :
    noDoubleWs (l.map ffRepl) = true := by
  induction l with
  | nil => rfl
  | cons a rest ih =>
    cases rest with
    | nil => simp [noDoubleWs]
    | cons b rs =>
      simp only [List.map_cons]
      simp only [List.map_cons] at ih
      simp only [noDoubleWs, Bool.and_eq_true] at h ⊢
      refine ⟨?_, ih h.2⟩
      rw [isSpace_ffRepl, isSpace_ffRepl]
      exact h.1

theorem noEdge_pyStrip (l : List Char) : noEdgeWs (pyStrip l) = true := by
  unfold noEdgeWs
  rw [Bool.and_eq_true]
  constructor
  · cases h : (pyStrip l).head? with
    | none => rfl
    | some c =>
      show (!isSpaceC c) = true
      rw [pyStrip_head l c h]
      rfl
  · cases h : lastCh (pyStrip l) with
    | none => rfl
    | some c =>
      show (!isSpaceC c) = true
      rw [pyStrip_last l c h]
      rfl

theorem lastCh_append (x r : List Char) (hr : r ≠ []) : lastCh (x ++ r) = lastCh r := by
  induction x with
  | nil => rfl
  | cons a xs ih =>
    have hne : xs ++ r ≠ [] := by
      intro he
      rcases List.append_eq_nil.mp he with ⟨_, h2⟩
      exact hr h2
    rw [List.cons_append, lastCh_cons a (xs ++ r) hne, ih]

/-!
Decomposition of a timestamp match: the consumed prefix ends with the
whitespace character required by the regex.
-/

theorem tsTail2_spec (rest out : List Char) (h : tsTail2 rest = some out) :
    ∃ pre sp, rest = pre ++ sp :: out ∧ isSpaceC sp = true := by
  unfold tsTail2 at h
  split at h
  · rename_i e1 e2 s rest2
    split at h
    · rename_i hg
      simp only [Option.some.injEq] at h
      subst h
      simp only [Bool.and_eq_true] at hg
      exact ⟨[':', e1, e2], s, rfl, hg.2⟩
    · exact Option.noConfusion h
  · rename_i s rest3 hne
    split at h
    · rename_i hg
      simp only [Option.some.injEq] at h
      subst h
      exact ⟨[], s, rfl, hg⟩
    · exact Option.noConfusion h
  · exact Option.noConfusion h

theorem colonTail_spec (l out : List Char) (h : colonTail l = some out) :
    ∃ pre sp, l = pre ++ sp :: out ∧ isSpaceC sp = true := by
  unfold colonTail at h
  split at h
  · rename_i d1 d2 rest
    split at h
    · obtain ⟨pre, sp, heq, hsp⟩ := tsTail2_spec rest out h
      exact ⟨':' :: d1 :: d2 :: pre, sp, by rw [heq]; rfl, hsp⟩
    · exact Option.noConfusion h
  · exact Option.noConfusion h

theorem tsAt_spec (l out : List Char) (h : tsAt l = some out) :
    ∃ pre sp, l = pre ++ sp :: out ∧ isSpaceC sp = true := by
  unfold tsAt at h
  split at h
  · exact Option.noConfusion h
  · rename_i d1 rest
    split at h
    · rename_i hd1
      split at h
      · rename_i d2 rest2
        split at h
        · obtain ⟨pre, sp, heq, hsp⟩ := colonTail_spec rest2 out h
          exact ⟨d1 :: d2 :: pre, sp, by rw [show rest2 = pre ++ sp :: out from heq]; rfl, hsp⟩
        · obtain ⟨pre, sp, heq, hsp⟩ := colonTail_spec (d2 :: rest2) out h
          exact ⟨d1 :: pre, sp, by rw [show d2 :: rest2 = pre ++ sp :: out from heq]; rfl, hsp⟩
      · exact Option.noConfusion h
    · exact Option.noConfusion h

theorem tsProc_ne (raw : List Char) (h : pyStrip raw ≠ []) :
    tsProc (pyStrip raw) ≠ [] := by
  unfold tsProc
  cases ht : tsAt (pyStrip raw) with
  | none => exact h
  | some r =>
    obtain ⟨pre, sp, heq, hsp⟩ := tsAt_spec _ _ ht
    obtain ⟨c, hc⟩ := lastCh_ne_nil _ h
    have hcs : isSpaceC c = false := pyStrip_last raw c hc
    cases r with
    | nil =>
      exfalso
      rw [heq] at hc
      rw [show pre ++ sp :: ([] : List Char) = pre ++ [sp] from rfl] at hc
      rw [lastCh_append pre [sp] (by simp)] at hc
      have : sp = c := by simpa [lastCh] using hc
      rw [this] at hsp
      rw [hsp] at hcs
      exact Bool.true_eq_false.mp hcs
    | cons r0 rs =>
      rw [heq] at hc
      rw [lastCh_append pre (sp :: r0 :: rs) (by simp)] at hc
      rw [lastCh_cons sp (r0 :: rs) (by simp)] at hc
      exact pyStrip_ne_of_last (r0 :: rs) c hc hcs

/-!
Lemmas about the speaker pattern and one step of the scan loop.
-/

theorem isEmpty_false_of_ne {α : Type} (l : List α) (h : l ≠ []) : l.isEmpty = false := by
  cases l with
  | nil => exact absurd rfl h
  | cons a b => rfl

theorem ne_of_isEmpty_false {α : Type} (l : List α) (h : l.isEmpty = false) : l ≠ [] := by
  intro he
  rw [he] at h
  exact Bool.true_eq_false.mp h

theorem upper_not_space (u : Char) (h : isAsciiUpper u = true) : isSpaceC u = false := by
  simp only [isAsciiUpper, decide_eq_true_eq] at h
  simp only [isSpaceC, decide_eq_false_iff_not]
  omega

theorem speaker_match_some (l g1 g2 : List Char) (h : speaker_match l = some (g1, g2)) :
    (∃ u run, g1 = u :: run ∧ isAsciiUpper u = true) ∧ g2 ≠ [] ∧
      (∀ c, g2.head? = some c → isSpaceC c = false) := by
  cases l with
  | nil => exact Option.noConfusion h
  | cons u rest =>
    simp only [speaker_match] at h
    by_cases hu : isAsciiUpper u = true
    · rw [if_pos hu] at h
      split at h
      · rename_i rest2 hd
        split at h
        · rename_i hguard
          simp only [Option.some.injEq, Prod.mk.injEq] at h
          obtain ⟨hg1, hg2⟩ := h
          simp only [Bool.and_eq_true, Bool.not_eq_true'] at hguard
          refine ⟨⟨u, rest.takeWhile isLetterOrWsC, hg1.symm, hu⟩, ?_, ?_⟩
          · rw [← hg2]
            exact ne_of_isEmpty_false _ hguard.1.2
          · intro c hc
            rw [← hg2] at hc
            exact dropWhile_head _ _ _ hc
        · exact Option.noConfusion h
      · exact Option.noConfusion h
    · rw [if_neg hu] at h
      exact Option.noConfusion h

theorem processLine_blank (st : PState) (l : List Char) (h : pyStrip l = []) :
    processLine st l = st := by
  simp [processLine, h]

theorem processLine_nonblank_eq (st : PState) (l : List Char) (h : pyStrip l ≠ []) :
    processLine st l =
      match speaker_match (tsProc (pyStrip l)) with
      | some (g1, g2) => ⟨some (pyStrip g1), [pyStrip g2], emitCurrent st⟩
      | none =>
        if truthyStr st.cs then ⟨st.cs, st.ct ++ [tsProc (pyStrip l)], st.parsed⟩
        else if !st.parsed.isEmpty then ⟨st.cs, st.ct, mutateLast st.parsed (tsProc (pyStrip l))⟩
        else ⟨st.cs, st.ct, st.parsed ++ [⟨unknownS, tsProc (pyStrip l)⟩]⟩ := by
  simp only [processLine, isEmpty_false_of_ne _ h]
  rfl

theorem processLine_speaker (st : PState) (l g1 g2 : List Char) (h : pyStrip l ≠ [])
    (hsm : speaker_match (tsProc (pyStrip l)) = some (g1, g2)) :
    processLine st l = ⟨some (pyStrip g1), [pyStrip g2], emitCurrent st⟩ := by
  rw [processLine_nonblank_eq st l h, hsm]

theorem processLine_cont (st : PState) (l : List Char) (h : pyStrip l ≠ [])
    (hsm : speaker_match (tsProc (pyStrip l)) = none) :
    processLine st l =
      (if truthyStr st.cs then (⟨st.cs, st.ct ++ [tsProc (pyStrip l)], st.parsed⟩ : PState)
       else if !st.parsed.isEmpty then ⟨st.cs, st.ct, mutateLast st.parsed (tsProc (pyStrip l))⟩
       else ⟨st.cs, st.ct, st.parsed ++ [⟨unknownS, tsProc (pyStrip l)⟩]⟩) := by
  rw [processLine_nonblank_eq st l h, hsm]

theorem mutateLast_ne (ps : List Turn) (l : List Char) (h : ps ≠ []) :
    mutateLast ps l ≠ [] := by
  cases ps with
  | nil => exact absurd rfl h
  | cons t ts =>
    cases ts with
    | nil => simp [mutateLast]
    | cons t2 ts2 => simp [mutateLast]

theorem mutateLast_ok (ps : List Turn) (l : List Char)
    (h : ∀ t ∈ ps, t.speaker ≠ [] ∧ t.text ≠ []) :
    ∀ t ∈ mutateLast ps l, t.speaker ≠ [] ∧ t.text ≠ [] := by
  induction ps with
  | nil =>
    intro t ht
    simp [mutateLast] at ht
  | cons t0 ts ih =>
    cases ts with
    | nil =>
      intro t ht
      simp only [mutateLast, List.mem_singleton] at ht
      rw [ht]
      refine ⟨(h t0 (List.mem_singleton_self t0)).1, ?_⟩
      simp
    | cons t1 ts2 =>
      intro t ht
      simp only [mutateLast] at ht
      rcases List.mem_cons.mp ht with hm | hm
      · rw [hm]
        exact h t0 (List.mem_cons_self _ _)
      · exact ih (fun x hx => h x (List.mem_cons_of_mem _ hx)) t hm

theorem mutateLast_append (ps : List Turn) (t : Turn) (l : List Char) :
    mutateLast (ps ++ [t]) l = ps ++ [⟨t.speaker, t.text ++ ' ' :: l⟩] := by
  induction ps with
  | nil => rfl
  | cons p ps2 ih =>
    have hne : ps2 ++ [t] ≠ [] := by simp
    have step : mutateLast (p :: (ps2 ++ [t])) l = p :: mutateLast (ps2 ++ [t]) l := by
      cases hps : ps2 ++ [t] with
      | nil => exact absurd hps hne
      | cons q rest => simp [mutateLast]
    rw [List.cons_append, step, ih]
    rfl

theorem pyJoin_ne (s0 : List Char) (rest : List (List Char)) (h : s0 ≠ []) :
    pyJoin (s0 :: rest) ≠ [] := by
  cases rest with
  | nil => simpa [pyJoin] using h
  | cons s1 rs => simp [pyJoin]

theorem emitCurrent_good (st : PState) (h : goodSt st) : emitCurrent st ≠ [] := by
  unfold emitCurrent
  rcases h with hp | ⟨htr, hct⟩
  · split
    · simp
    · exact hp
  · rw [if_pos (by rw [htr, isEmpty_false_of_ne _ hct]; rfl)]
    simp

theorem emitCurrent_inv (st : PState) (h : InvSt st) :
    ∀ t ∈ emitCurrent st, t.speaker ≠ [] ∧ t.text ≠ [] := by
  intro t ht
  unfold emitCurrent at ht
  by_cases hcond : (truthyStr st.cs && !st.ct.isEmpty) = true
  · rw [if_pos hcond] at ht
    rcases List.mem_append.mp ht with hm | hm
    · exact h.1 t hm
    · have hteq : t = ⟨st.cs.getD [], pyJoin st.ct⟩ := by simpa using hm
      subst hteq
      simp only [Bool.and_eq_true, Bool.not_eq_true'] at hcond
      constructor
      · show st.cs.getD [] ≠ []
        cases hcs : st.cs with
        | none =>
          rw [hcs] at hcond
          exact absurd hcond.1 (by simp [truthyStr])
        | some s =>
          rw [hcs] at hcond
          have hse : s.isEmpty = false := by simpa [truthyStr] using hcond.1
          simpa using ne_of_isEmpty_false s hse
      · show pyJoin st.ct ≠ []
        have hct : st.ct ≠ [] := ne_of_isEmpty_false _ hcond.2
        cases hc : st.ct with
        | nil => exact absurd hc hct
        | cons s0 rs =>
          have hs0 : s0 ≠ [] := h.2 s0 (by rw [hc]; exact List.mem_cons_self _ _)
          exact pyJoin_ne s0 rs hs0
  · rw [if_neg hcond] at ht
    exact h.1 t ht

theorem processLine_good (st : PState) (l : List Char) (h : pyStrip l ≠ []) :
    goodSt (processLine st l) := by
  cases hsm : speaker_match (tsProc (pyStrip l)) with
  | some p =>
    obtain ⟨g1, g2⟩ := p
    rw [processLine_speaker st l g1 g2 h hsm]
    obtain ⟨⟨u, run, hg1, hu⟩, hg2ne, hg2h⟩ := speaker_match_some _ _ _ hsm
    right
    constructor
    · have hne : pyStrip g1 ≠ [] := by
        rw [hg1]
        exact pyStrip_ne_of_head _ u rfl (upper_not_space u hu)
      simp [truthyStr, isEmpty_false_of_ne _ hne]
    · simp
  | none =>
    rw [processLine_cont st l h hsm]
    cases htr : truthyStr st.cs with
    | true =>
      rw [if_pos rfl]
      right
      refine ⟨htr, by simp⟩
    | false =>
      rw [if_neg (by simp)]
      cases hp : st.parsed with
      | nil =>
        rw [if_neg (by simp)]
        left
        simp
      | cons t0 ts =>
        rw [if_pos (show (!(t0 :: ts).isEmpty) = true from rfl)]
        left
        exact mutateLast_ne _ _ (by simp)

theorem processLine_pres (st : PState) (l : List Char) (h : goodSt st) :
    goodSt (processLine st l) := by
  by_cases hb : pyStrip l = []
  · rw [processLine_blank st l hb]
    exact h
  · exact processLine_good st l hb

theorem processLine_inv (st : PState) (l : List Char) (h : InvSt st) :
    InvSt (processLine st l) := by
  by_cases hb : pyStrip l = []
  · rw [processLine_blank st l hb]
    exact h
  · have hline : tsProc (pyStrip l) ≠ [] := tsProc_ne l hb
    cases hsm : speaker_match (tsProc (pyStrip l)) with
    | some p =>
      obtain ⟨g1, g2⟩ := p
      rw [processLine_speaker st l g1 g2 hb hsm]
      obtain ⟨⟨u, run, hg1, hu⟩, hg2ne, hg2h⟩ := speaker_match_some _ _ _ hsm
      constructor
      · exact emitCurrent_inv st h
      · intro s hs
        have hseq : s = pyStrip g2 := by simpa using hs
        rw [hseq]
        obtain ⟨c, rest2, hg2⟩ := List.exists_cons_of_ne_nil hg2ne
        rw [hg2]
        exact pyStrip_ne_of_head _ c rfl (hg2h c (by rw [hg2]; rfl))
    | none =>
      rw [processLine_cont st l hb hsm]
      cases htr : truthyStr st.cs with
      | true =>
        rw [if_pos rfl]
        constructor
        · exact h.1
        · intro s hs
          rcases List.mem_append.mp hs with hm | hm
          · exact h.2 s hm
          · have hseq : s = tsProc (pyStrip l) := by simpa using hm
            rw [hseq]
            exact hline
      | false =>
        rw [if_neg (by simp)]
        cases hp : st.parsed with
        | nil =>
          rw [if_neg (by simp)]
          constructor
          · intro t ht
            have hteq : t = ⟨unknownS, tsProc (pyStrip l)⟩ := by simpa using ht
            rw [hteq]
            exact ⟨by simp [unknownS], hline⟩
          · exact h.2
        | cons t0 ts =>
          rw [if_pos (show (!(t0 :: ts).isEmpty) = true from rfl)]
          refine ⟨?_, h.2⟩
          have hps : ∀ t ∈ st.parsed, t.speaker ≠ [] ∧ t.text ≠ [] := h.1
          rw [hp] at hps
          exact mutateLast_ok _ _ hps

theorem foldl_inv (lines : List (List Char)) :
    ∀ st, InvSt st → InvSt (lines.foldl processLine st) := by
  induction lines with
  | nil => intro st h; exact h
  | cons l rest ih =>
    intro st h
    exact ih _ (processLine_inv st l h)

theorem foldl_good (lines : List (List Char)) :
    ∀ st, goodSt st → goodSt (lines.foldl processLine st) := by
  induction lines with
  | nil => intro st h; exact h
  | cons l rest ih =>
    intro st h
    exact ih _ (processLine_pres st l h)

theorem foldl_ex (lines : List (List Char)) :
    ∀ st, (∃ l ∈ lines, pyStrip l ≠ []) → goodSt (lines.foldl processLine st) := by
  induction lines with
  | nil =>
    intro st h
    obtain ⟨l, hl, _⟩ := h
    simp at hl
  | cons l0 rest ih =>
    intro st h
    by_cases hb : pyStrip l0 = []
    · obtain ⟨l, hl, hne⟩ := h
      rcases List.mem_cons.mp hl with heq | hm
      · rw [heq] at hne
        exact absurd hb hne
      · exact ih _ ⟨l, hm, hne⟩
    · simp only [List.foldl_cons]
      exact foldl_good rest _ (processLine_good st l0 hb)

theorem foldl_blank (lines : List (List Char)) :
    ∀ st, (∀ l ∈ lines, pyStrip l = []) → lines.foldl processLine st = st := by
  induction lines with
  | nil => intro st _; rfl
  | cons l0 rest ih =>
    intro st h
    simp only [List.foldl_cons]
    rw [processLine_blank st l0 (h l0 (List.mem_cons_self _ _))]
    exact ih _ (fun l hl => h l (List.mem_cons_of_mem _ hl))

/-!
Lemmas about the extractor: the validation loop as a filter, and
case equations of extract_action_items.
-/

theorem validateStep_eq (acc : List ActionItem) (item : JVal) :
    validateStep acc item = acc ++ (specKeep item).toList := by
  cases item with
  | jobj fields =>
    by_cases h : pyDictHas fields taskKey = true
    · simp [validateStep, specKeep, h]
    · simp [validateStep, specKeep, h]
  | jnull => simp [validateStep, specKeep]
  | jbool b => simp [validateStep, specKeep]
  | jnum n => simp [validateStep, specKeep]
  | jstr s => simp [validateStep, specKeep]
  | jarr xs => simp [validateStep, specKeep]

theorem validate_go (items : List JVal) :
    ∀ acc, items.foldl validateStep acc = acc ++ specValidate items := by
  induction items with
  | nil =>
    intro acc
    simp [specValidate]
  | cons i rest ih =>
    intro acc
    simp only [List.foldl_cons]
    rw [validateStep_eq]
    rw [ih (acc ++ (specKeep i).toList)]
    unfold specValidate
    rw [List.filterMap_cons]
    cases hk : specKeep i with
    | none => simp
    | some a => simp

theorem validateLoop_all_str (items : List JVal)
    (h : ∀ x ∈ items, ∃ s, x = JVal.jstr s) : validateLoop items = [] := by
  unfold validateLoop
  rw [validate_go items []]
  simp only [List.nil_append]
  unfold specValidate
  apply List.filterMap_eq_nil_iff.mpr
  intro a ha
  obtain ⟨s, hs⟩ := h a ha
  rw [hs]
  rfl

theorem extract_fail_eq (t m : List Char) (h : t ≠ []) :
    extract_action_items t (GenOutcome.fail m) = ([], [Diag.error (genFailPre ++ m)]) := by
  simp [extract_action_items, isEmpty_false_of_ne _ h]

theorem extract_ok_eq (t r : List Char) (h : t ≠ []) :
    extract_action_items t (GenOutcome.ok r) =
      (match json_loads (unwrapResponse r) with
       | none => ([], [Diag.error parseFailMsg, Diag.code (unwrapResponse r)])
       | some v =>
         match pyIter v with
         | some items => (validateLoop items, [])
         | none => ([], [Diag.error (iterFailMsg v)])) := by
  simp only [extract_action_items, isEmpty_false_of_ne _ h]
  rfl

theorem extract_ok_some_eq (t r : List Char) (v : JVal) (ht : t ≠ [])
    (hj : json_loads (unwrapResponse r) = some v) :
    extract_action_items t (GenOutcome.ok r) =
      (match pyIter v with
       | some items => (validateLoop items, [])
       | none => ([], [Diag.error (iterFailMsg v)])) := by
  rw [extract_ok_eq t r ht, hj]

/-!
Claim theorems.
-/

/-- Claim C1: for every input text and every behavior of the external
generation capability (including a raised network, authentication or
configuration error), extract_action_items returns a list of action
items and never propagates an exception (it is a total function); when
the call fails on non-empty input the result is the empty sequence
with the diagnostic surfaced, and whenever any diagnostic is surfaced
the item list is empty. -/
theorem claim_c1 :
    (∀ t m : List Char, t ≠ [] →
       extract_action_items t (GenOutcome.fail m) = ([], [Diag.error (genFailPre ++ m)])) ∧
    (∀ (t : List Char) (g : GenOutcome),
       (extract_action_items t g).2 ≠ [] → (extract_action_items t g).1 = []) := by
  constructor
  · intro t m ht
    exact extract_fail_eq t m ht
  · intro t g hd
    by_cases ht : t = []
    · rw [ht] at hd
      exact absurd rfl hd
    · cases g with
      | fail m =>
        rw [extract_fail_eq t m ht]
      | ok r =>
        cases hj : json_loads (unwrapResponse r) with
        | none =>
          rw [extract_ok_eq t r ht, hj]
        | some v =>
          rw [extract_ok_some_eq t r v ht hj] at hd ⊢
          revert hd
          cases hi : pyIter v with
          | none =>
            intro hd
            rfl
          | some items =>
            intro hd
            exact absurd rfl hd

/-- Witness for claim C1 at a concrete failing call. -/
theorem claim_c1_witness :
    extract_action_items (("x").data) (GenOutcome.fail (("boom").data)) =
      ([], [Diag.error (genFailPre ++ ("boom").data)]) :=
  claim_c1.1 (("x").data) (("boom").data) (by decide)

/-- Claim C2: parse applied to the three-line input with leading clock
timestamps yields exactly the two turns of the spec scenario: the
timestamps are stripped, the continuation line is space-joined onto
the Alice turn. -/
theorem claim_c2 :
    parse_transcript
        (("00:01 Alice: Let\x27s discuss the budget.\nWe need more funding.\n00:02 Bob: I disagree.").data) =
      [⟨("Alice").data, ("Let\x27s discuss the budget. We need more funding.").data⟩,
       ⟨("Bob").data, ("I disagree.").data⟩] := by
  rfl

/-- Claim C3: validation keeps exactly the keyed records containing a
task key, in input order, with the default substitutions of the spec
(specValidate is written from the wording of the spec); the mocked
two-element response keeps only the second element; a non-canonical
priority value passes through verbatim; an empty task string is kept. -/
theorem claim_c3 :
    (∀ items : List JVal, validateLoop items = specValidate items) ∧
    extract_action_items (("t").data)
        (GenOutcome.ok (("[\x7b\"assignee\":\"Ann\"\x7d,\x7b\"task\":\"Review PR\",\"priority\":\"High\"\x7d]").data)) =
      ([⟨JVal.jstr (("Unassigned").data), JVal.jstr (("Review PR").data), JVal.jstr (("High").data)⟩], []) ∧
    validateLoop [JVal.jobj [((("task").data), JVal.jstr (("x").data)),
                             ((("priority").data), JVal.jstr (("Urgent").data))]] =
      [⟨JVal.jstr (("Unassigned").data), JVal.jstr (("x").data), JVal.jstr (("Urgent").data)⟩] ∧
    validateLoop [JVal.jobj [((("task").data), JVal.jstr [])]] =
      [⟨JVal.jstr (("Unassigned").data), JVal.jstr [], JVal.jstr (("Medium").data)⟩] := by
  refine ⟨?_, by rfl, by rfl, by rfl⟩
  intro items
  unfold validateLoop
  rw [validate_go items []]
  rfl

/-- Claim C4, amended: for every input text, clean contains no run of
two or more consecutive whitespace characters and no leading or
trailing whitespace, and timestamp stripping applies anywhere in the
text (demonstrated on a non-line-leading occurrence); the original
claim that no timestamp substring survives is refuted by the
counterexample theorem. -/
theorem claim_c4 :
    (∀ raw : List Char,
       noDoubleWs (clean_transcript raw) = true ∧ noEdgeWs (clean_transcript raw) = true) ∧
    clean_transcript (("a 1:23 b").data) = ("a b").data := by
  refine ⟨?_, by rfl⟩
  intro raw
  unfold clean_transcript
  by_cases h : raw.isEmpty = true
  · rw [if_pos h]
    exact ⟨rfl, rfl⟩
  · rw [if_neg h]
    exact ⟨noDouble_pyStrip _ (noDouble_map_ff _ (collapse_noDouble _)),
           noEdge_pyStrip _⟩

/-- Counterexample to claim C4 as stated: the timestamp regex demands
a trailing whitespace character, so a timestamp at the very end of the
text survives cleaning and the output still contains a clock-style
timestamp substring. -/
theorem claim_c4_counterexample :
    spec_hasTimestamp (clean_transcript (("1:23").data)) = true := by
  rfl

/-- Claim C5: the response unwrapping precedence of extract: a fenced
block labeled json is stripped first; failing that a generic fenced
block; otherwise the whole stripped response is the payload; and the
mocked labeled-fence response yields exactly the single item with the
default Medium priority. -/
theorem claim_c5 :
    (∀ r : List Char, hasSub fenceJson (pyStrip r) = true →
       unwrapResponse r = pyStrip (takeUntil fence (afterFirst fenceJson (pyStrip r)))) ∧
    (∀ r : List Char, hasSub fenceJson (pyStrip r) = false → hasSub fence (pyStrip r) = true →
       unwrapResponse r = pyStrip (takeUntil fence (afterFirst fence (pyStrip r)))) ∧
    (∀ r : List Char, hasSub fenceJson (pyStrip r) = false → hasSub fence (pyStrip r) = false →
       unwrapResponse r = pyStrip r) ∧
    extract_action_items (("t").data)
        (GenOutcome.ok (("```json\n[\x7b\"assignee\":\"Sam\",\"task\":\"Write report\"\x7d]\n```").data)) =
      ([⟨JVal.jstr (("Sam").data), JVal.jstr (("Write report").data), JVal.jstr (("Medium").data)⟩], []) := by
  refine ⟨?_, ?_, ?_, by rfl⟩
  · intro r h
    simp [unwrapResponse, h]
  · intro r h1 h2
    simp [unwrapResponse, h1, h2]
  · intro r h1 h2
    simp [unwrapResponse, h1, h2]

/-- Witness for claim C5: each unwrapping case at a concrete response. -/
theorem claim_c5_witness :
    (unwrapResponse (("```json a ```").data) =
       pyStrip (takeUntil fence (afterFirst fenceJson (pyStrip (("```json a ```").data))))) ∧
    (unwrapResponse (("``` b ```").data) =
       pyStrip (takeUntil fence (afterFirst fence (pyStrip (("``` b ```").data))))) ∧
    unwrapResponse (("plain").data) = pyStrip (("plain").data) :=
  ⟨claim_c5.1 _ (by rfl), claim_c5.2.1 _ (by rfl) (by rfl),
   claim_c5.2.2.1 _ (by rfl) (by rfl)⟩

/-- Claim C6: when the unwrapped response does not parse as JSON,
extract returns the empty sequence together with the parse diagnostic
and the raw offending text, and does not raise; in particular on the
response that is not JSON at all. -/
theorem claim_c6 :
    (∀ t r : List Char, t ≠ [] → json_loads (unwrapResponse r) = none →
       extract_action_items t (GenOutcome.ok r) =
         ([], [Diag.error parseFailMsg, Diag.code (unwrapResponse r)])) ∧
    extract_action_items (("t").data) (GenOutcome.ok (("not json at all").data)) =
      ([], [Diag.error parseFailMsg, Diag.code (("not json at all").data)]) := by
  constructor
  · intro t r ht hj
    rw [extract_ok_eq t r ht, hj]
  · rfl

/-- Witness for claim C6 at a concrete unparseable response. -/
theorem claim_c6_witness :
    extract_action_items (("x").data) (GenOutcome.ok (("nope").data)) =
      ([], [Diag.error parseFailMsg, Diag.code (unwrapResponse (("nope").data))]) :=
  claim_c6.1 (("x").data) (("nope").data) (by decide) (by rfl)

/-- Claim C7: when the unwrapped response parses as JSON whose
top-level value is not an array (an object, string, number, boolean or
null), extract returns the empty item sequence: dict and string
iteration drop every element, and the TypeError of a non-iterable
value is caught by the generic handler. -/
theorem claim_c7 (t r : List Char) (v : JVal) (ht : t ≠ [])
    (hj : json_loads (unwrapResponse r) = some v)
    (hv : ∀ xs, v ≠ JVal.jarr xs) :
    (extract_action_items t (GenOutcome.ok r)).1 = [] := by
  rw [extract_ok_eq t r ht, hj]
  cases v with
  | jarr xs => exact absurd rfl (hv xs)
  | jobj fs =>
    show validateLoop (fs.map (fun f => JVal.jstr f.1)) = []
    apply validateLoop_all_str
    intro x hx
    obtain ⟨f, _, hf⟩ := List.mem_map.mp hx
    exact ⟨f.1, hf.symm⟩
  | jstr s =>
    show validateLoop (s.map (fun c => JVal.jstr [c])) = []
    apply validateLoop_all_str
    intro x hx
    obtain ⟨c, _, hc⟩ := List.mem_map.mp hx
    exact ⟨[c], hc.symm⟩
  | jnull => rfl
  | jbool b => rfl
  | jnum n => rfl

/-- Witness for claim C7 at a concrete object-shaped response. -/
theorem claim_c7_witness :
    (extract_action_items (("x").data) (GenOutcome.ok (("\x7b\x7d").data))).1 = [] :=
  claim_c7 (("x").data) (("\x7b\x7d").data) (JVal.jobj []) (by decide) (by rfl)
    (fun xs h => JVal.noConfusion h)

/-- Claim C8: a non-blank, non-speaker-header line arriving while no
speaker is active starts an Unknown turn when nothing was emitted yet,
and otherwise appends the line (with a separating space) to the text
of the most recently emitted turn, mutating it in place. -/
theorem claim_c8 (st : PState) (rawLine line : List Char)
    (h1 : pyStrip rawLine ≠ []) (h2 : tsProc (pyStrip rawLine) = line)
    (h3 : speaker_match line = none) (h4 : st.cs = none) :
    (st.parsed = [] →
       processLine st rawLine = ⟨none, st.ct, [⟨unknownS, line⟩]⟩) ∧
    (∀ ps t, st.parsed = ps ++ [t] →
       processLine st rawLine = ⟨none, st.ct, ps ++ [⟨t.speaker, t.text ++ ' ' :: line⟩]⟩) := by
  have hcont := processLine_cont st rawLine h1 (by rw [h2]; exact h3)
  rw [h2] at hcont
  rw [h4] at hcont
  rw [show truthyStr none = false from rfl] at hcont
  rw [if_neg Bool.false_ne_true] at hcont
  constructor
  · intro hp
    rw [hp] at hcont
    rw [if_neg (by simp)] at hcont
    rw [hcont]
    simp
  · intro ps t hp
    rw [hp] at hcont
    rw [if_pos (by rw [isEmpty_false_of_ne _ (show ps ++ [t] ≠ [] by simp)]; rfl)] at hcont
    rw [mutateLast_append] at hcont
    rw [hcont]

/-- Witness for claim C8: both cases at concrete states and lines. -/
theorem claim_c8_witness :
    (processLine ⟨none, [], []⟩ (("hello").data) =
       ⟨none, [], [⟨unknownS, ("hello").data⟩]⟩) ∧
    (processLine ⟨none, [], [⟨("A").data, ("x").data⟩]⟩ (("hello").data) =
       ⟨none, [], [⟨("A").data, ("x").data ++ ' ' :: ("hello").data⟩]⟩) :=
  ⟨(claim_c8 ⟨none, [], []⟩ (("hello").data) (("hello").data)
      (by decide) (by rfl) (by rfl) rfl).1 rfl,
   (claim_c8 ⟨none, [], [⟨("A").data, ("x").data⟩]⟩ (("hello").data) (("hello").data)
      (by decide) (by rfl) (by rfl) rfl).2 [] ⟨("A").data, ("x").data⟩ rfl⟩

/-- Claim C9: every turn produced by parse has a non-empty speaker and
a non-empty text; the proof maintains the invariant at every step of
the construction. -/
theorem claim_c9 (raw : List Char) (t : Turn) (h : t ∈ parse_transcript raw) :
    t.speaker ≠ [] ∧ t.text ≠ [] := by
  unfold parse_transcript at h
  by_cases hr : raw.isEmpty = true
  · rw [if_pos hr] at h
    exact absurd h (List.not_mem_nil t)
  · rw [if_neg hr] at h
    refine emitCurrent_inv _ (foldl_inv _ _ ?_) t h
    exact ⟨fun x hx => absurd hx (List.not_mem_nil x),
           fun s hs => absurd hs (List.not_mem_nil s)⟩

/-- Witness for claim C9 on a concrete one-line transcript. -/
theorem claim_c9_witness :
    (⟨("Alice").data, ("hi").data⟩ : Turn).speaker ≠ [] ∧
      (⟨("Alice").data, ("hi").data⟩ : Turn).text ≠ [] :=
  claim_c9 (("Alice: hi").data) ⟨("Alice").data, ("hi").data⟩ (by decide)

/-- Claim C10: parse returns the empty sequence exactly when the input
has no line that is non-blank after trimming; any non-blank line
guarantees at least one emitted turn. -/
theorem claim_c10 (raw : List Char) :
    parse_transcript raw = [] ↔ ∀ l ∈ splitOnNl raw, pyStrip l = [] := by
  constructor
  · intro hp
    by_contra hex
    push_neg at hex
    obtain ⟨l, hl, hne⟩ := hex
    have hraw : raw.isEmpty = false := by
      cases hcase : raw with
      | nil =>
        rw [hcase] at hl
        have hle : l = [] := by simpa [splitOnNl] using hl
        rw [hle] at hne
        exact absurd rfl hne
      | cons a as => rfl
    unfold parse_transcript at hp
    rw [if_neg (by rw [hraw]; exact Bool.false_ne_true)] at hp
    exact emitCurrent_good _ (foldl_ex _ _ ⟨l, hl, hne⟩) hp
  · intro hall
    unfold parse_transcript
    by_cases hr : raw.isEmpty = true
    · rw [if_pos hr]
    · rw [if_neg hr]
      rw [foldl_blank _ _ hall]
      rfl
